import Mathlib

/-!
Verification of `dependency_graph.py`: a tool that reads a git object store
directly, walks commit ancestry from HEAD, filters commits by a start date,
and hands the sorted commit list to a Graphviz-based graph builder.

Shallow embedding conventions:
* Bytes on disk are modelled after zlib decompression and UTF-8 decoding,
  i.e. as the decoded `String` content (no claim concerns corrupt zlib
  streams or invalid UTF-8).
* The filesystem is modelled as association lists from path to content;
  `.git/objects` entries are keyed by the derived `<2-char dir>/<rest>` path.
* Python exceptions are modelled by `Except PyError`; a Python `dict` with
  optional keys (`parent`, `committer_timestamp`) becomes a structure with
  `Option` fields, and `dict[key]` access on a missing key is `keyError`.
* The unbounded `while` loop of `get_commits_after_date` is modelled with an
  explicit fuel parameter; exhausting the fuel is the distinguished outcome
  `outOfFuel`, which the real loop reaches on no input on which it terminates.
* Python `datetime` values are modelled by a wall-clock value (seconds) plus
  an optional UTC-offset (`none` = naive): `replace(tzinfo=utc)` keeps the
  wall clock and sets the offset to 0, while the denoted instant of an aware
  value is wall clock minus offset.
-/

namespace DepGraph

/-- Worker for `pySplit`: splits a character list on whitespace runs,
accumulating the current word reversed; empty chunks are dropped, exactly
as Python `str.split()` with no argument does. -/
def wordsAux : List Char → List Char → List (List Char)
  | [], acc => if acc = [] then [] else [acc.reverse]
  | c :: cs, acc =>
    if c.isWhitespace then
      if acc = [] then wordsAux cs [] else acc.reverse :: wordsAux cs []
    else wordsAux cs (c :: acc)

/-- Python `str.split()` with no argument: split on whitespace runs and drop
empty chunks. -/
def pySplit (s : String) : List String :=
  (wordsAux s.data []).map (fun cs => ⟨cs⟩)

/-- Worker for `pyLines`: split a character list at every newline, keeping
empty chunks, as Python `str.split('\n')` does. -/
def linesAux : List Char → List Char → List (List Char)
  | [], acc => [acc.reverse]
  | c :: cs, acc =>
    if c = '\n' then acc.reverse :: linesAux cs [] else linesAux cs (c :: acc)

/-- Python `data.decode('utf-8').split('\n')` on already-decoded text. -/
def pyLines (s : String) : List String :=
  (linesAux s.data []).map (fun cs => ⟨cs⟩)

/-- Python `s.startswith(pre)`. -/
def charsStartWith : List Char → List Char → Bool
  | [], _ => true
  | _ :: _, [] => false
  | p :: ps, c :: cs => p = c && charsStartWith ps cs

/-- Python `s.startswith(pre)` on strings. -/
def pyStartsWith (s pre : String) : Bool :=
  charsStartWith pre.data s.data

/-- Decimal digit accumulation for `pyInt?`; `none` on a non-digit. -/
def digitsVal : List Char → Nat → Option Nat
  | [], acc => some acc
  | c :: cs, acc =>
    if c.isDigit then digitsVal cs (acc * 10 + (c.toNat - 48)) else none

/-- Python `int(...)` on a whitespace-free token: optional sign then at
least one decimal digit. Returns `none` where Python raises `ValueError`. -/
def pyInt? (s : String) : Option Int :=
  match s.data with
  | '-' :: c :: cs =>
    if c.isDigit then (digitsVal (c :: cs) 0).map (fun n => -(n : Int)) else none
  | '+' :: c :: cs =>
    if c.isDigit then (digitsVal (c :: cs) 0).map (fun n => (n : Int)) else none
  | c :: cs =>
    if c.isDigit then (digitsVal (c :: cs) 0).map (fun n => (n : Int)) else none
  | [] => none

/-- Python `s.strip()`: drop whitespace from both ends. -/
def pyStrip (s : String) : String :=
  ⟨((s.data.dropWhile Char.isWhitespace).reverse.dropWhile
      Char.isWhitespace).reverse⟩

/-- Python truthiness of a string used as a loop condition: the empty string
is falsy, every other string is truthy. -/
def pyTruthy (s : String) : Option String :=
  if s = "" then none else some s

/-- The Python exceptions the program can raise, plus the fuel artefact. -/
inductive PyError where
  /-- `ValueError("Invalid commit hash length: ...")` raised by `read_commit`. -/
  | invalidHash (h : String)
  /-- `FileNotFoundError` for a missing object or ref file. -/
  | fileNotFound (path : String)
  /-- `IndexError` from `line.split()[1]` or `committer_parts[-2]`. -/
  | indexError
  /-- `ValueError` from `int(...)` on a non-numeric token. -/
  | valueError
  /-- `KeyError` from `commit_data['committer_timestamp']` on a dict missing
  that key. -/
  | keyError
  /-- Modelling artefact: the fueled loop ran out of fuel. -/
  | outOfFuel
deriving Repr, DecidableEq

/-- The dict built by `parse_commit_data`: `commit_hash` is always present;
`parent` and `committer_timestamp` are present only when a matching header
line was seen. -/
structure CommitRecord where
  commit_hash : String
  parent : Option String
  committer_timestamp : Option Int
deriving Repr, DecidableEq

/-- The `for line in lines` loop body of `parse_commit_data`, threading the
partially filled dict. A `parent` line stores its second token (IndexError
if absent); a `committer` line stores `int(parts[-2])` (IndexError if fewer
than two tokens, ValueError if non-numeric). Later lines overwrite earlier
ones because dict assignment replaces the value. -/
def parse_lines : List String → CommitRecord → Except PyError CommitRecord
  | [], r => .ok r
  | line :: rest, r =>
    if pyStartsWith line "parent" then
      match (pySplit line)[1]? with
      | none => .error .indexError
      | some tok => parse_lines rest { r with parent := some tok }
    else if pyStartsWith line "committer" then
      if (pySplit line).length < 2 then .error .indexError
      else
        match ((pySplit line)[(pySplit line).length - 2]?).bind pyInt? with
        | none => .error .valueError
        | some ts => parse_lines rest { r with committer_timestamp := some ts }
    else parse_lines rest r

/-- `parse_commit_data(data, commit_hash)`: split the decoded text on
newlines and scan the header lines. -/
def parse_commit_data (data : String) (commit_hash : String) :
    Except PyError CommitRecord :=
  parse_lines (pyLines data) ⟨commit_hash, none, none⟩

/-- The object path derived from a hash: first two characters are the
directory, the rest the file name (joined here with `/`). -/
def object_path (h : String) : String :=
  ⟨h.data.take 2⟩ ++ "/" ++ ⟨h.data.drop 2⟩

/-- Association-list lookup modelling a filesystem directory: first match by
exact path. `none` models a missing file. -/
def store_get (path : String) : List (String × String) → Option String
  | [] => none
  | (p, d) :: rest => if p = path then some d else store_get path rest

/-- `read_commit(commit_hash, repo_path)`: reject hashes shorter than 40
characters, then locate the object file, then decompress and parse. The
`objects` store maps object paths to decompressed content. -/
def read_commit (commit_hash : String) (objects : List (String × String)) :
    Except PyError CommitRecord :=
  if commit_hash.length < 40 then .error (.invalidHash commit_hash)
  else
    match store_get (object_path commit_hash) objects with
    | none => .error (.fileNotFound (object_path commit_hash))
    | some data => parse_commit_data data commit_hash

/-- A Python `datetime`: naive wall-clock value in seconds plus an optional
UTC offset in seconds (`none` = naive datetime). -/
structure PyDateTime where
  wall : Int
  tzOffset : Option Int
deriving Repr, DecidableEq

/-- `datetime.fromtimestamp(ts, timezone.utc)`: wall clock equals the
timestamp, offset 0. -/
def fromtimestamp_utc (ts : Int) : PyDateTime := ⟨ts, some 0⟩

/-- `d.replace(tzinfo=timezone.utc)`: keep the wall clock, set the offset
to 0. No conversion of the wall-clock value happens. -/
def replace_tz_utc (d : PyDateTime) : PyDateTime := ⟨d.wall, some 0⟩

/-- The instant denoted by an aware datetime: wall clock minus offset
(naive values use offset 0 only where Python would never compare them). -/
def instant (d : PyDateTime) : Int := d.wall - d.tzOffset.getD 0

/-- `a >= b` on two aware datetimes compares their instants. -/
def dt_ge (a b : PyDateTime) : Bool := instant b ≤ instant a

/-- Sort key `lambda x: x['committer_timestamp']`. Every record reaching the
sort was already filtered through a successful `['committer_timestamp']`
access, so the `getD 0` default is never exercised. -/
def tsKey (r : CommitRecord) : Int := r.committer_timestamp.getD 0

/-- Stable insertion of a record into a (sorted) list: the new element goes
before the first element whose key is not smaller. Together with
`sortByTs`, this models Python's stable `list.sort(key=...)`. -/
def orderedInsertTs (x : CommitRecord) : List CommitRecord → List CommitRecord
  | [] => [x]
  | y :: ys => if tsKey x ≤ tsKey y then x :: y :: ys else y :: orderedInsertTs x ys

/-- `commits.sort(key=lambda x: x['committer_timestamp'])` modelled as a
stable insertion sort (Python's Timsort is stable and extensionally equal to
any stable comparison sort on the same key). -/
def sortByTs : List CommitRecord → List CommitRecord
  | [] => []
  | x :: xs => orderedInsertTs x (sortByTs xs)

/-- `current_commit_hash = commit_data.get('parent', None)` followed by
`if not current_commit_hash: break`: a missing or empty parent ends the
walk. -/
def nextHash (r : CommitRecord) : Option String :=
  r.parent.bind pyTruthy

/-- The `while current_commit_hash:` loop of `get_commits_after_date`:
read and parse the current commit (exceptions propagate — there is no
try/except in the loop), access its `committer_timestamp` (KeyError if
absent), append it to the accumulator when its UTC instant is `>=` the
start date after `replace(tzinfo=utc)`, then follow the parent link. -/
def walkLoop (objects : List (String × String)) (start : PyDateTime) :
    Nat → Option String → List CommitRecord → Except PyError (List CommitRecord)
  | _, none, acc => .ok acc
  | 0, some _, _ => .error .outOfFuel
  | fuel + 1, some cur, acc =>
    match read_commit cur objects with
    | .error e => .error e
    | .ok r =>
      match r.committer_timestamp with
      | none => .error .keyError
      | some ts =>
        let acc' :=
          if dt_ge (fromtimestamp_utc ts) (replace_tz_utc start) then acc ++ [r]
          else acc
        walkLoop objects start fuel (nextHash r) acc'

/-- The same traversal with the date filter removed: collects every record
the loop reads, in discovery order. Used to state which commits a walk
visits. -/
def traceLoop (objects : List (String × String)) :
    Nat → Option String → Except PyError (List CommitRecord)
  | _, none => .ok []
  | 0, some _ => .error .outOfFuel
  | fuel + 1, some cur =>
    match read_commit cur objects with
    | .error e => .error e
    | .ok r =>
      match r.committer_timestamp with
      | none => .error .keyError
      | some _ => (traceLoop objects fuel (nextHash r)).map (fun t => r :: t)

/-- `get_commit_hash_from_ref(branch_ref, repo_path)`: read the ref file and
strip its content; a missing file raises FileNotFoundError. -/
def get_commit_hash_from_ref (branch_ref : String)
    (refs : List (String × String)) : Except PyError String :=
  match store_get branch_ref refs with
  | none => .error (.fileNotFound branch_ref)
  | some s => .ok (pyStrip s)

/-- The readable parts of a repository: the stripped-relevant `.git/HEAD`
content, the ref files, and the decompressed object files. -/
structure Repo where
  head : String
  refs : List (String × String)
  objects : List (String × String)

/-- The HEAD-resolution prologue of `get_commits_after_date`: strip the HEAD
content; if it starts with `ref:` follow the named ref file, otherwise use
the content itself as the starting hash. -/
def resolve_head (repo : Repo) : Except PyError String :=
  let ref := pyStrip repo.head
  if pyStartsWith ref "ref:" then
    match (pySplit ref).get? 1 with
    | none => .error .indexError
    | some branch_ref => get_commit_hash_from_ref branch_ref repo.refs
  else .ok ref

/-- `get_commits_after_date(repo_path, start_date)`: resolve HEAD, walk the
ancestry chain collecting records whose timestamp passes the date filter,
then sort ascending by `committer_timestamp`. -/
def get_commits_after_date (repo : Repo) (start : PyDateTime) (fuel : Nat) :
    Except PyError (List CommitRecord) :=
  match resolve_head repo with
  | .error e => .error e
  | .ok h =>
    match walkLoop repo.objects start fuel (pyTruthy h) [] with
    | .error e => .error e
    | .ok l => .ok (sortByTs l)

/-- The unfiltered companion of `get_commits_after_date`: same HEAD
resolution, but collects every commit the walk visits. -/
def get_commits_trace (repo : Repo) (fuel : Nat) :
    Except PyError (List CommitRecord) :=
  match resolve_head repo with
  | .error e => .error e
  | .ok h => traceLoop repo.objects fuel (pyTruthy h)

/-- The 1-based position of the first commit in the list whose hash equals
`h`, modelling `next((i for i, c in enumerate(commits, 1) if
c['commit_hash'] == parent_hash), None)`. -/
def findIdx1 (h : String) : List CommitRecord → Option Nat
  | [] => none
  | c :: cs => if c.commit_hash = h then some 1 else (findIdx1 h cs).map (fun i => i + 1)

/-- The edges drawn by `generate_graph(commits)`: for the commit at 1-based
position `i+1`, if it has a truthy parent hash that some commit in the list
carries as its `commit_hash`, draw an edge from the parent's 1-based
position to `i+1`. (A found position is at least 1 and hence always truthy,
so `if parent_idx:` is exactly the `some` test.) -/
def generate_graph_edges (commits : List CommitRecord) : List (Nat × Nat) :=
  commits.enum.filterMap fun ic =>
    match ic.2.parent with
    | none => none
    | some h =>
      if h = "" then none
      else (findIdx1 h commits).map (fun p => (p, ic.1 + 1))

/-- The nodes drawn by `generate_graph(commits)`: one per commit, keyed by
its 1-based position, labelled with the position and the first 7 characters
of the hash. -/
def generate_graph_nodes (commits : List CommitRecord) : List (Nat × String) :=
  commits.enum.map fun ic =>
    (ic.1 + 1, "Commit " ++ toString (ic.1 + 1) ++ "\n" ++ ic.2.commit_hash.take 7)

/-- Specification helper: the second whitespace token of the last line in
the list that starts with `parent`, or `none` when no line does (or when
that last line has no second token, in which case parsing fails anyway). -/
def last_parent_token : List String → Option String
  | [] => none
  | l :: rest =>
    match last_parent_token rest with
    | some t => some t
    | none => if pyStartsWith l "parent" then (pySplit l)[1]? else none

/-- The date filter applied by the Walker to a record it visits: keep the
record when its timestamp, read as a UTC instant, is at least the start
date after `replace(tzinfo=utc)`. -/
def walkKeep (start : PyDateTime) (r : CommitRecord) : Bool :=
  dt_ge (fromtimestamp_utc (tsKey r)) (replace_tz_utc start)

/-- The record the decoder produces for position `i` of a synthetic linear
chain with hash function `hs` and timestamp function `ts`: the root (i = 0)
has no parent, every other commit points at the previous one. -/
def chainRecord (hs : Nat → String) (ts : Nat → Int) (i : Nat) : CommitRecord :=
  ⟨hs i, if i = 0 then none else some (hs (i - 1)), some (ts i)⟩

/-- The records of the synthetic chain from position `k` down to the root,
in the Walker's discovery order (tip first). -/
def chainRecords (hs : Nat → String) (ts : Nat → Int) : Nat → List CommitRecord
  | 0 => [chainRecord hs ts 0]
  | k + 1 => chainRecord hs ts (k + 1) :: chainRecords hs ts k

/-! Lemmas about the commit decoder. -/

/-- Inversion for one step of the header-line loop: a successful parse of
`l :: rest` goes through an intermediate record that differs from `r` in at
most the entry the line `l` writes. -/
theorem parse_lines_cons_inv (l : String) (rest : List String)
    (r r' : CommitRecord) (h : parse_lines (l :: rest) r = .ok r') :
    ∃ r₀, parse_lines rest r₀ = .ok r' ∧
      ((pyStartsWith l "parent" ∧
          ∃ tok, (pySplit l)[1]? = some tok ∧ r₀ = { r with parent := some tok }) ∨
       (¬ pyStartsWith l "parent" ∧ pyStartsWith l "committer" ∧
          ∃ ts, r₀ = { r with committer_timestamp := some ts }) ∨
       (¬ pyStartsWith l "parent" ∧ ¬ pyStartsWith l "committer" ∧ r₀ = r)) := by
  by_cases hp : pyStartsWith l "parent"
  · cases hg : (pySplit l)[1]? with
    | none =>
      simp only [parse_lines, hp, if_true, hg] at h
      cases h
    | some tok =>
      simp only [parse_lines, hp, if_true, hg] at h
      exact ⟨_, h, Or.inl ⟨hp, tok, rfl, rfl⟩⟩
  · have hp' : pyStartsWith l "parent" = false := by
      simpa using hp
    by_cases hc : pyStartsWith l "committer"
    · by_cases hlen : (pySplit l).length < 2
      · simp only [parse_lines, hp', Bool.false_eq_true, if_false, hc, if_true,
          if_pos hlen] at h
        cases h
      · cases hg : ((pySplit l)[(pySplit l).length - 2]?).bind pyInt? with
        | none =>
          simp only [parse_lines, hp', Bool.false_eq_true, if_false, hc, if_true,
            if_neg hlen, hg] at h
          cases h
        | some ts =>
          simp only [parse_lines, hp', Bool.false_eq_true, if_false, hc, if_true,
            if_neg hlen, hg] at h
          exact ⟨_, h, Or.inr (Or.inl ⟨hp, hc, ts, rfl⟩)⟩
    · have hc' : pyStartsWith l "committer" = false := by
        simpa using hc
      simp only [parse_lines, hp', hc', Bool.false_eq_true, if_false] at h
      exact ⟨_, h, Or.inr (Or.inr ⟨hp, hc, rfl⟩)⟩

/-- The `commit_hash` entry is written once, before the line loop, and no
branch of the loop touches it. -/
theorem parse_lines_hash (ls : List String) (r r' : CommitRecord)
    (h : parse_lines ls r = .ok r') : r'.commit_hash = r.commit_hash := by
  induction ls generalizing r with
  | nil => simp only [parse_lines] at h; cases h; rfl
  | cons l rest ih =>
    obtain ⟨r₀, hrest, hcase⟩ := parse_lines_cons_inv l rest r r' h
    have hhash : r₀.commit_hash = r.commit_hash := by
      rcases hcase with ⟨_, tok, _, rfl⟩ | ⟨_, _, ts, rfl⟩ | ⟨_, _, rfl⟩ <;> rfl
    rw [ih _ hrest, hhash]

/-- If no line starts with `committer`, the loop never writes the
`committer_timestamp` entry. -/
theorem parse_lines_no_committer (ls : List String) (r r' : CommitRecord)
    (hnc : ∀ l ∈ ls, ¬ pyStartsWith l "committer")
    (h : parse_lines ls r = .ok r') :
    r'.committer_timestamp = r.committer_timestamp := by
  induction ls generalizing r with
  | nil => simp only [parse_lines] at h; cases h; rfl
  | cons l rest ih =>
    have hl : ¬ pyStartsWith l "committer" := hnc l (List.mem_cons_self l rest)
    have hrest : ∀ l' ∈ rest, ¬ pyStartsWith l' "committer" :=
      fun l' hm => hnc l' (List.mem_cons_of_mem l hm)
    obtain ⟨r₀, hrec, hcase⟩ := parse_lines_cons_inv l rest r r' h
    have hts : r₀.committer_timestamp = r.committer_timestamp := by
      rcases hcase with ⟨_, tok, _, rfl⟩ | ⟨_, hc, ts, rfl⟩ | ⟨_, _, rfl⟩
      · rfl
      · exact absurd hc hl
      · rfl
    rw [ih r₀ hrest hrec, hts]

/-- Dict assignment overwrites: after the loop, the `parent` entry holds the
second token of the last `parent` line, or the initial value if there is no
such line. -/
theorem parse_lines_parent (ls : List String) (r r' : CommitRecord)
    (h : parse_lines ls r = .ok r') :
    r'.parent = (last_parent_token ls).orElse (fun _ => r.parent) := by
  induction ls generalizing r with
  | nil => simp only [parse_lines] at h; cases h; rfl
  | cons l rest ih =>
    obtain ⟨r₀, hrec, hcase⟩ := parse_lines_cons_inv l rest r r' h
    rcases hcase with ⟨hp, tok, hg, rfl⟩ | ⟨hp, hc, ts, rfl⟩ | ⟨hp, hc, rfl⟩
    · have hih := ih _ hrec
      cases hlpt : last_parent_token rest with
      | some t =>
        rw [hlpt] at hih
        simp only [last_parent_token, hlpt]
        simpa using hih
      | none =>
        rw [hlpt] at hih
        simp only [last_parent_token, hlpt, hp, if_true, hg]
        simpa using hih
    · have hih := ih _ hrec
      have hp' : pyStartsWith l "parent" = false := by simpa using hp
      cases hlpt : last_parent_token rest with
      | some t =>
        rw [hlpt] at hih
        simp only [last_parent_token, hlpt]
        simpa using hih
      | none =>
        rw [hlpt] at hih
        simp only [last_parent_token, hlpt, hp', Bool.false_eq_true, if_false]
        simpa using hih
    · have hih := ih _ hrec
      have hp' : pyStartsWith l "parent" = false := by simpa using hp
      cases hlpt : last_parent_token rest with
      | some t =>
        rw [hlpt] at hih
        simp only [last_parent_token, hlpt]
        exact hih
      | none =>
        rw [hlpt] at hih
        simp only [last_parent_token, hlpt, hp', Bool.false_eq_true, if_false]
        exact hih

/-! Claims about the commit decoder and the object store reader. -/

/-- C1 (counterexample): on a commit object with two `parent` lines
(`parent aaa` first, `parent bbb` second) the decoder returns a record
whose parent is `bbb`, the second token of the SECOND parent line — not
`aaa` from the first line as the claim states. -/
theorem parse_two_parent_lines_keeps_second :
    parse_commit_data "parent aaa\nparent bbb\ncommitter a b 100 +0000" "cafe" =
      .ok { commit_hash := "cafe", parent := some "bbb",
            committer_timestamp := some 100 } ∧
    parse_commit_data "parent aaa\nparent bbb\ncommitter a b 100 +0000" "cafe" ≠
      .ok { commit_hash := "cafe", parent := some "aaa",
            committer_timestamp := some 100 } := by
  refine ⟨by rfl, fun hco => ?_⟩
  rw [show parse_commit_data "parent aaa\nparent bbb\ncommitter a b 100 +0000"
        "cafe" =
      .ok { commit_hash := "cafe", parent := some "bbb",
            committer_timestamp := some 100 } from rfl] at hco
  simp at hco

/-- C1 (amended): when the decoded text contains `parent` lines, the
returned record's parent hash is the second token of the LAST such line
encountered; earlier parent lines are overwritten. -/
theorem parse_parent_is_last_parent_line_token (data commit_hash : String)
    (r : CommitRecord) (t : String)
    (hok : parse_commit_data data commit_hash = .ok r)
    (hlast : last_parent_token (pyLines data) = some t) :
    r.parent = some t := by
  have hpar := parse_lines_parent _ _ _ hok
  rw [hlast] at hpar
  simpa using hpar

/-- C1 (witness): the amended theorem applied to the two-parent commit
object: the last parent line's token `bbb` is what the record carries. -/
theorem parse_parent_last_token_witness :
    ({ commit_hash := "cafe", parent := some "bbb",
       committer_timestamp := some 100 } : CommitRecord).parent = some "bbb" :=
  parse_parent_is_last_parent_line_token
    "parent aaa\nparent bbb\ncommitter a b 100 +0000" "cafe"
    { commit_hash := "cafe", parent := some "bbb",
      committer_timestamp := some 100 } "bbb" (by rfl) (by rfl)

/-- C3 (counterexample): on a commit object with no `committer` line the
decoder does NOT fail: it returns `.ok` with the `committer_timestamp`
entry absent, contrary to the claim that it errors. -/
theorem parse_no_committer_returns_ok :
    parse_commit_data "tree x\nauthor y" "deadbeef" =
      .ok { commit_hash := "deadbeef", parent := none,
            committer_timestamp := none } ∧
    ({ commit_hash := "deadbeef", parent := none,
       committer_timestamp := none } : CommitRecord).committer_timestamp =
      none := ⟨by rfl, rfl⟩

/-- C3 (amended): with no `committer` line the decoder returns a record
whose `committer_timestamp` is absent, and the Walker then raises KeyError
on first consuming such a record — so no defaulted timestamp is ever
used. -/
theorem no_committer_record_breaks_walker (data commit_hash : String)
    (r : CommitRecord)
    (hnc : ∀ l ∈ pyLines data, ¬ pyStartsWith l "committer")
    (hok : parse_commit_data data commit_hash = .ok r) :
    r.committer_timestamp = none ∧
    ∀ (objects : List (String × String)) (start : PyDateTime) (fuel : Nat)
      (cur : String) (acc : List CommitRecord),
      read_commit cur objects = .ok r → 1 ≤ fuel →
      walkLoop objects start fuel (some cur) acc = .error .keyError := by
  have hts : r.committer_timestamp = none :=
    parse_lines_no_committer _ _ _ hnc hok
  refine ⟨hts, fun objects start fuel cur acc hread hfuel => ?_⟩
  cases fuel with
  | zero => exact absurd hfuel (by omega)
  | succ f => simp only [walkLoop, hread, hts]

/-- C3 (witness): a concrete store whose only object lacks a `committer`
line: the walker stops with KeyError on it. -/
theorem no_committer_walker_witness :
    ({ commit_hash := "aaaaaaaaaaaaaaaaaaaaaaaaaaaaaaaaaaaaaaaa", parent := none,
       committer_timestamp := none } : CommitRecord).committer_timestamp =
        none ∧
    walkLoop [(object_path "aaaaaaaaaaaaaaaaaaaaaaaaaaaaaaaaaaaaaaaa",
               "tree x\nauthor y")] ⟨0, none⟩ 3
      (some "aaaaaaaaaaaaaaaaaaaaaaaaaaaaaaaaaaaaaaaa") [] =
      .error .keyError := by
  have hmain := no_committer_record_breaks_walker "tree x\nauthor y"
    "aaaaaaaaaaaaaaaaaaaaaaaaaaaaaaaaaaaaaaaa"
    { commit_hash := "aaaaaaaaaaaaaaaaaaaaaaaaaaaaaaaaaaaaaaaa", parent := none,
      committer_timestamp := none } (by decide) (by rfl)
  exact ⟨hmain.1, hmain.2 _ _ 3 _ [] (by rfl) (by omega)⟩

/-- C4 (counterexample): a 41-character hash is NOT rejected: the length
check only fires on hashes shorter than 40, so an overlong hash reaches the
filesystem — it resolves to an object when present and raises
FileNotFoundError when absent, never the invalid-hash ValueError. -/
theorem read_commit_accepts_overlong_hash :
    ("aaaaaaaaaaaaaaaaaaaaaaaaaaaaaaaaaaaaaaaaZ" : String).length = 41 ∧
    read_commit "aaaaaaaaaaaaaaaaaaaaaaaaaaaaaaaaaaaaaaaaZ"
      [(object_path "aaaaaaaaaaaaaaaaaaaaaaaaaaaaaaaaaaaaaaaaZ",
        "committer a b 100 +0000")] =
      .ok { commit_hash := "aaaaaaaaaaaaaaaaaaaaaaaaaaaaaaaaaaaaaaaaZ",
            parent := none, committer_timestamp := some 100 } ∧
    read_commit "aaaaaaaaaaaaaaaaaaaaaaaaaaaaaaaaaaaaaaaaZ" [] =
      .error (.fileNotFound
        (object_path "aaaaaaaaaaaaaaaaaaaaaaaaaaaaaaaaaaaaaaaaZ")) :=
  ⟨by rfl, by rfl, by rfl⟩

/-- C4 (amended): only hashes SHORTER than 40 characters are rejected with
the invalid-hash error, and for them the result is the same for every
object store — no filesystem access is needed to produce it. -/
theorem read_commit_rejects_short_hash (h : String)
    (objects : List (String × String)) (hlen : h.length < 40) :
    read_commit h objects = .error (.invalidHash h) := by
  simp only [read_commit, if_pos hlen]

/-- C4 (witness): the short hash `abc` is rejected against a non-empty
store. -/
theorem read_commit_short_hash_witness :
    ("abc" : String).length < 40 ∧
    read_commit "abc" [("ab/c", "committer a b 100 +0000")] =
      .error (.invalidHash "abc") :=
  ⟨by decide, read_commit_rejects_short_hash "abc"
    [("ab/c", "committer a b 100 +0000")] (by decide)⟩

/-- C10: a successfully read commit record always carries exactly the hash
it was requested under — the key invariant behind the graph builder's
hash-equality parent lookup. -/
theorem read_commit_hash_matches_request (h : String)
    (objects : List (String × String)) (r : CommitRecord)
    (hok : read_commit h objects = .ok r) : r.commit_hash = h := by
  by_cases hlen : h.length < 40
  · simp only [read_commit, if_pos hlen] at hok
    cases hok
  · cases hsg : store_get (object_path h) objects with
    | none =>
      simp only [read_commit, if_neg hlen, hsg] at hok
      cases hok
    | some data =>
      simp only [read_commit, if_neg hlen, hsg] at hok
      exact parse_lines_hash _ _ _ hok

/-- C10 (witness): a concrete read returns a record keyed by the requested
hash. -/
theorem read_commit_hash_witness :
    ({ commit_hash := "bbbbbbbbbbbbbbbbbbbbbbbbbbbbbbbbbbbbbbbb", parent := none,
       committer_timestamp := some 7 } : CommitRecord).commit_hash =
      "bbbbbbbbbbbbbbbbbbbbbbbbbbbbbbbbbbbbbbbb" :=
  read_commit_hash_matches_request "bbbbbbbbbbbbbbbbbbbbbbbbbbbbbbbbbbbbbbbb"
    [(object_path "bbbbbbbbbbbbbbbbbbbbbbbbbbbbbbbbbbbbbbbb",
      "committer a b 7 +0000")]
    { commit_hash := "bbbbbbbbbbbbbbbbbbbbbbbbbbbbbbbbbbbbbbbb", parent := none,
      committer_timestamp := some 7 } (by rfl)

/-! Lemmas about the history walker. -/

/-- The filtering walk is the unfiltered traversal followed by the date
filter: the two fueled loops succeed and fail together, and on success the
collected list is the accumulator extended by the filtered traversal. -/
theorem walkLoop_eq_trace (objects : List (String × String))
    (start : PyDateTime) :
    ∀ (fuel : Nat) (cur : Option String) (acc : List CommitRecord),
    walkLoop objects start fuel cur acc =
      (traceLoop objects fuel cur).map
        (fun t => acc ++ t.filter (walkKeep start)) := by
  intro fuel
  induction fuel with
  | zero =>
    intro cur acc
    cases cur with
    | none => simp [walkLoop, traceLoop, Except.map]
    | some c => simp [walkLoop, traceLoop, Except.map]
  | succ f ih =>
    intro cur acc
    cases cur with
    | none => simp [walkLoop, traceLoop, Except.map]
    | some c =>
      cases hread : read_commit c objects with
      | error e => simp [walkLoop, traceLoop, hread, Except.map]
      | ok r =>
        cases hts : r.committer_timestamp with
        | none => simp [walkLoop, traceLoop, hread, hts, Except.map]
        | some ts =>
          have hkey : walkKeep start r =
              dt_ge (fromtimestamp_utc ts) (replace_tz_utc start) := by
            simp [walkKeep, tsKey, hts]
          simp only [walkLoop, traceLoop, hread, hts]
          rw [ih]
          cases htr : traceLoop objects f (nextHash r) with
          | error e => simp [Except.map]
          | ok t =>
            by_cases hc : dt_ge (fromtimestamp_utc ts) (replace_tz_utc start)
            · simp [Except.map, List.filter_cons, hkey, hc]
            · simp [Except.map, List.filter_cons, hkey, hc]

/-- The walk depends on the supplied start date only through its wall-clock
value: `replace(tzinfo=utc)` discards the incoming timezone every
iteration. -/
theorem walkLoop_wall_only (objects : List (String × String))
    (s1 s2 : PyDateTime) (hw : s1.wall = s2.wall) :
    ∀ (fuel : Nat) (cur : Option String) (acc : List CommitRecord),
    walkLoop objects s1 fuel cur acc = walkLoop objects s2 fuel cur acc := by
  intro fuel
  induction fuel with
  | zero =>
    intro cur acc
    cases cur with
    | none => simp [walkLoop]
    | some c => simp [walkLoop]
  | succ f ih =>
    intro cur acc
    cases cur with
    | none => simp [walkLoop]
    | some c =>
      cases hread : read_commit c objects with
      | error e => simp [walkLoop, hread]
      | ok r =>
        cases hts : r.committer_timestamp with
        | none => simp [walkLoop, hread, hts]
        | some ts =>
          have hrep : replace_tz_utc s1 = replace_tz_utc s2 := by
            simp [replace_tz_utc, hw]
          simp only [walkLoop, hread, hts, hrep]
          exact ih (nextHash r) _

/-- `get_commits_after_date` is the unfiltered traversal, filtered by the
date bound and sorted by timestamp. -/
theorem get_commits_eq_trace (repo : Repo) (start : PyDateTime) (fuel : Nat) :
    get_commits_after_date repo start fuel =
      (get_commits_trace repo fuel).map
        (fun t => sortByTs (t.filter (walkKeep start))) := by
  cases hres : resolve_head repo with
  | error e => simp [get_commits_after_date, get_commits_trace, hres, Except.map]
  | ok h =>
    simp only [get_commits_after_date, get_commits_trace, hres]
    rw [walkLoop_eq_trace]
    cases htr : traceLoop repo.objects fuel (pyTruthy h) with
    | error e => simp [Except.map]
    | ok t => simp [Except.map]

/-! Lemmas about the stable sort. -/

/-- Inserting permutes: the result is the element on top of the old list,
up to permutation. -/
theorem orderedInsertTs_perm (x : CommitRecord) (l : List CommitRecord) :
    (orderedInsertTs x l).Perm (x :: l) := by
  induction l with
  | nil => simp [orderedInsertTs]
  | cons y ys ih =>
    by_cases hc : tsKey x ≤ tsKey y
    · simp [orderedInsertTs, hc]
    · simp only [orderedInsertTs, if_neg hc]
      exact (ih.cons y).trans (List.Perm.swap x y ys)

/-- The sort is a permutation of its input. -/
theorem sortByTs_perm (l : List CommitRecord) : (sortByTs l).Perm l := by
  induction l with
  | nil => simp [sortByTs]
  | cons x xs ih => exact (orderedInsertTs_perm x (sortByTs xs)).trans (ih.cons x)

/-- Membership in an insertion. -/
theorem mem_orderedInsertTs (z x : CommitRecord) (l : List CommitRecord) :
    z ∈ orderedInsertTs x l ↔ z = x ∨ z ∈ l := by
  rw [(orderedInsertTs_perm x l).mem_iff]
  simp

/-- Inserting preserves sortedness by the timestamp key. -/
theorem sorted_orderedInsertTs (x : CommitRecord) (l : List CommitRecord)
    (h : l.Pairwise (fun a b => tsKey a ≤ tsKey b)) :
    (orderedInsertTs x l).Pairwise (fun a b => tsKey a ≤ tsKey b) := by
  induction l with
  | nil => simp [orderedInsertTs]
  | cons y ys ih =>
    by_cases hc : tsKey x ≤ tsKey y
    · simp only [orderedInsertTs, if_pos hc]
      refine List.Pairwise.cons (fun z hz => ?_) h
      rcases List.mem_cons.mp hz with rfl | hz
      · exact hc
      · exact le_trans hc (List.rel_of_pairwise_cons h hz)
    · simp only [orderedInsertTs, if_neg hc]
      refine List.Pairwise.cons (fun z hz => ?_) (ih (List.Pairwise.of_cons h))
      rcases (mem_orderedInsertTs z x ys).mp hz with rfl | hz
      · omega
      · exact List.rel_of_pairwise_cons h hz

/-- The sort output is ascending in the timestamp key. -/
theorem sortByTs_sorted (l : List CommitRecord) :
    (sortByTs l).Pairwise (fun a b => tsKey a ≤ tsKey b) := by
  induction l with
  | nil => simp [sortByTs]
  | cons x xs ih => exact sorted_orderedInsertTs x (sortByTs xs) ih

/-- Stability, one insertion: among records whose key equals the inserted
record's key, the inserted one lands first and the others keep their
order. -/
theorem filter_orderedInsertTs_pos (x : CommitRecord) (l : List CommitRecord)
    (t : Int) (hx : tsKey x = t) :
    (orderedInsertTs x l).filter (fun c => decide (tsKey c = t)) =
      x :: l.filter (fun c => decide (tsKey c = t)) := by
  induction l with
  | nil => simp [orderedInsertTs, hx]
  | cons y ys ih =>
    by_cases hc : tsKey x ≤ tsKey y
    · simp only [orderedInsertTs, if_pos hc]
      simp [List.filter_cons, hx]
    · have hy : ¬ tsKey y = t := by omega
      simp only [orderedInsertTs, if_neg hc]
      simp [List.filter_cons, hy, ih]

/-- Stability, one insertion: records with a key different from the
inserted record's key are unaffected. -/
theorem filter_orderedInsertTs_neg (x : CommitRecord) (l : List CommitRecord)
    (t : Int) (hx : ¬ tsKey x = t) :
    (orderedInsertTs x l).filter (fun c => decide (tsKey c = t)) =
      l.filter (fun c => decide (tsKey c = t)) := by
  induction l with
  | nil => simp [orderedInsertTs, hx]
  | cons y ys ih =>
    by_cases hc : tsKey x ≤ tsKey y
    · simp [orderedInsertTs, hc, List.filter_cons, hx]
    · simp [orderedInsertTs, hc, List.filter_cons, ih]

/-- Stability of the sort: for every timestamp value, the subsequence of
records carrying it is the same before and after sorting. -/
theorem sortByTs_stable (l : List CommitRecord) (t : Int) :
    (sortByTs l).filter (fun c => decide (tsKey c = t)) =
      l.filter (fun c => decide (tsKey c = t)) := by
  induction l with
  | nil => simp [sortByTs]
  | cons x xs ih =>
    by_cases hx : tsKey x = t
    · simp only [sortByTs, filter_orderedInsertTs_pos x (sortByTs xs) t hx, ih,
        List.filter_cons, hx]
      simp
    · simp only [sortByTs, filter_orderedInsertTs_neg x (sortByTs xs) t hx, ih,
        List.filter_cons]
      simp [hx]

/-! Claims about the history walker. -/

/-- Helper for the missing-parent behaviour: from any reached commit whose
parent hash is well-formed but names no stored object, the loop raises
FileNotFoundError two steps later — there is no try/except around
`read_commit` in the loop. -/
theorem walkLoop_missing_parent (objects : List (String × String))
    (start : PyDateTime) (fuel : Nat) (cur p : String)
    (acc : List CommitRecord) (r : CommitRecord) (ts : Int)
    (hread : read_commit cur objects = .ok r)
    (hts : r.committer_timestamp = some ts)
    (hpar : r.parent = some p)
    (hp : p ≠ "")
    (hplen : ¬ p.length < 40)
    (hmiss : store_get (object_path p) objects = none)
    (hfuel : 2 ≤ fuel) :
    walkLoop objects start fuel (some cur) acc =
      .error (.fileNotFound (object_path p)) := by
  obtain ⟨f, rfl⟩ : ∃ f, fuel = f + 2 := ⟨fuel - 2, by omega⟩
  have hnext : nextHash r = some p := by simp [nextHash, hpar, pyTruthy, hp]
  simp only [walkLoop, hread, hts, hnext]
  simp only [walkLoop, read_commit, if_neg hplen, hmiss]

/-- C2 (counterexample): a repository whose single stored commit names a
missing parent object: the Walker raises FileNotFoundError instead of
returning the one commit it had already collected. -/
theorem walker_errors_on_missing_parent_object :
    get_commits_after_date
      ⟨"1111111111111111111111111111111111111111", [],
       [(object_path "1111111111111111111111111111111111111111",
         "parent 0000000000000000000000000000000000000000\ncommitter a b 100 +0000")]⟩
      ⟨50, none⟩ 10 =
      .error (.fileNotFound
        (object_path "0000000000000000000000000000000000000000")) ∧
    get_commits_after_date
      ⟨"1111111111111111111111111111111111111111", [],
       [(object_path "1111111111111111111111111111111111111111",
         "parent 0000000000000000000000000000000000000000\ncommitter a b 100 +0000")]⟩
      ⟨50, none⟩ 10 ≠
      .ok [{ commit_hash := "1111111111111111111111111111111111111111",
             parent := some "0000000000000000000000000000000000000000",
             committer_timestamp := some 100 }] := by
  refine ⟨by rfl, fun hco => ?_⟩
  rw [show get_commits_after_date
      ⟨"1111111111111111111111111111111111111111", [],
       [(object_path "1111111111111111111111111111111111111111",
         "parent 0000000000000000000000000000000000000000\ncommitter a b 100 +0000")]⟩
      ⟨50, none⟩ 10 =
      .error (.fileNotFound
        (object_path "0000000000000000000000000000000000000000")) from by rfl]
    at hco
  cases hco

/-- C2 (amended): when the walk reaches a commit whose parent hash (with
valid length) names no stored object, `get_commits_after_date` raises the
FileNotFoundError from `read_commit` to ITS caller — the commits collected
so far are discarded, not returned. -/
theorem walker_raises_on_missing_parent_object (repo : Repo)
    (start : PyDateTime) (fuel : Nat) (tip p : String) (r : CommitRecord)
    (ts : Int)
    (hres : resolve_head repo = .ok tip)
    (htip : tip ≠ "")
    (hread : read_commit tip repo.objects = .ok r)
    (hts : r.committer_timestamp = some ts)
    (hpar : r.parent = some p)
    (hp : p ≠ "")
    (hplen : ¬ p.length < 40)
    (hmiss : store_get (object_path p) repo.objects = none)
    (hfuel : 2 ≤ fuel) :
    get_commits_after_date repo start fuel =
      .error (.fileNotFound (object_path p)) := by
  have htr : pyTruthy tip = some tip := by simp [pyTruthy, htip]
  simp only [get_commits_after_date, hres, htr,
    walkLoop_missing_parent repo.objects start fuel tip p [] r ts hread hts hpar
      hp hplen hmiss hfuel]

/-- C2 (witness): the amended theorem on the concrete one-commit store with
a dangling parent pointer. -/
theorem walker_missing_parent_witness :
    get_commits_after_date
      ⟨"2222222222222222222222222222222222222222", [],
       [(object_path "2222222222222222222222222222222222222222",
         "parent 0000000000000000000000000000000000000000\ncommitter a b 100 +0000")]⟩
      ⟨50, none⟩ 10 =
      .error (.fileNotFound
        (object_path "0000000000000000000000000000000000000000")) :=
  walker_raises_on_missing_parent_object
    ⟨"2222222222222222222222222222222222222222", [],
     [(object_path "2222222222222222222222222222222222222222",
       "parent 0000000000000000000000000000000000000000\ncommitter a b 100 +0000")]⟩
    ⟨50, none⟩ 10 "2222222222222222222222222222222222222222"
    "0000000000000000000000000000000000000000"
    { commit_hash := "2222222222222222222222222222222222222222",
      parent := some "0000000000000000000000000000000000000000",
      committer_timestamp := some 100 } 100
    (by rfl) (by decide) (by rfl) rfl rfl (by decide) (by decide) (by rfl)
    (by omega)

/-- C6: every successfully returned commit list is ascending in
`committer_timestamp`, and it is a stable sort of the loop's discovery
order: for each timestamp value, the records carrying it appear in exactly
their discovery order. -/
theorem walker_output_sorted_stable (repo : Repo) (start : PyDateTime)
    (fuel : Nat) (res : List CommitRecord)
    (hok : get_commits_after_date repo start fuel = .ok res) :
    res.Pairwise (fun a b => tsKey a ≤ tsKey b) ∧
    ∃ tip discovered,
      resolve_head repo = .ok tip ∧
      walkLoop repo.objects start fuel (pyTruthy tip) [] = .ok discovered ∧
      res = sortByTs discovered ∧
      ∀ t : Int, res.filter (fun c => decide (tsKey c = t)) =
        discovered.filter (fun c => decide (tsKey c = t)) := by
  cases hres : resolve_head repo with
  | error e => simp [get_commits_after_date, hres] at hok
  | ok tip =>
    simp only [get_commits_after_date, hres] at hok
    cases hwl : walkLoop repo.objects start fuel (pyTruthy tip) [] with
    | error e => rw [hwl] at hok; cases hok
    | ok discovered =>
      rw [hwl] at hok
      cases hok
      exact ⟨sortByTs_sorted discovered,
        tip, discovered, rfl, hwl, rfl, fun t => sortByTs_stable discovered t⟩

/-- C6 (witness): the sorted-and-stable conclusion on a concrete two-commit
repository. -/
theorem walker_output_sorted_witness :
    ([{ commit_hash := "0000000000000000000000000000000000000000",
        parent := none, committer_timestamp := some 100 },
      { commit_hash := "3333333333333333333333333333333333333333",
        parent := some "0000000000000000000000000000000000000000",
        committer_timestamp := some 200 }] :
        List CommitRecord).Pairwise (fun a b => tsKey a ≤ tsKey b) ∧
    ∃ tip discovered,
      resolve_head
        ⟨"3333333333333333333333333333333333333333", [],
         [(object_path "3333333333333333333333333333333333333333",
           "parent 0000000000000000000000000000000000000000\ncommitter a b 200 +0000"),
          (object_path "0000000000000000000000000000000000000000",
           "committer a b 100 +0000")]⟩ = .ok tip ∧
      walkLoop
        [(object_path "3333333333333333333333333333333333333333",
          "parent 0000000000000000000000000000000000000000\ncommitter a b 200 +0000"),
         (object_path "0000000000000000000000000000000000000000",
          "committer a b 100 +0000")] ⟨50, none⟩ 10 (pyTruthy tip) [] =
        .ok discovered ∧
      [{ commit_hash := "0000000000000000000000000000000000000000",
         parent := none, committer_timestamp := some 100 },
       { commit_hash := "3333333333333333333333333333333333333333",
         parent := some "0000000000000000000000000000000000000000",
         committer_timestamp := some 200 }] = sortByTs discovered ∧
      ∀ t : Int,
        ([{ commit_hash := "0000000000000000000000000000000000000000",
            parent := none, committer_timestamp := some 100 },
          { commit_hash := "3333333333333333333333333333333333333333",
            parent := some "0000000000000000000000000000000000000000",
            committer_timestamp := some 200 }] :
            List CommitRecord).filter (fun c => decide (tsKey c = t)) =
          discovered.filter (fun c => decide (tsKey c = t)) :=
  walker_output_sorted_stable
    ⟨"3333333333333333333333333333333333333333", [],
     [(object_path "3333333333333333333333333333333333333333",
       "parent 0000000000000000000000000000000000000000\ncommitter a b 200 +0000"),
      (object_path "0000000000000000000000000000000000000000",
       "committer a b 100 +0000")]⟩ ⟨50, none⟩ 10
    [{ commit_hash := "0000000000000000000000000000000000000000",
       parent := none, committer_timestamp := some 100 },
     { commit_hash := "3333333333333333333333333333333333333333",
       parent := some "0000000000000000000000000000000000000000",
       committer_timestamp := some 200 }] (by rfl)

/-- C7: a commit visited by the walk whose `committer_timestamp`, read as a
UTC instant, equals the start-date boundary exactly is included in the
output — the date filter is an inclusive lower bound. -/
theorem walker_includes_boundary_timestamp (repo : Repo) (start : PyDateTime)
    (fuel : Nat) (res tr : List CommitRecord) (r : CommitRecord)
    (hok : get_commits_after_date repo start fuel = .ok res)
    (htr : get_commits_trace repo fuel = .ok tr)
    (hmem : r ∈ tr)
    (hts : r.committer_timestamp = some (instant (replace_tz_utc start))) :
    r ∈ res := by
  have hdec := get_commits_eq_trace repo start fuel
  rw [hok, htr] at hdec
  simp only [Except.map] at hdec
  cases hdec
  have hkeep : walkKeep start r = true := by
    simp [walkKeep, dt_ge, tsKey, hts, fromtimestamp_utc, replace_tz_utc,
      instant]
  exact (sortByTs_perm _).mem_iff.mpr
    (List.mem_filter.mpr ⟨hmem, hkeep⟩)

/-- C7 (witness): a concrete commit whose timestamp is exactly the
boundary instant lands in the output. -/
theorem walker_boundary_witness :
    ({ commit_hash := "4444444444444444444444444444444444444444",
       parent := none, committer_timestamp := some 100 } : CommitRecord) ∈
      ([{ commit_hash := "4444444444444444444444444444444444444444",
          parent := none, committer_timestamp := some 100 }] :
        List CommitRecord) :=
  walker_includes_boundary_timestamp
    ⟨"4444444444444444444444444444444444444444", [],
     [(object_path "4444444444444444444444444444444444444444",
       "committer a b 100 +0000")]⟩ ⟨100, none⟩ 5
    [{ commit_hash := "4444444444444444444444444444444444444444",
       parent := none, committer_timestamp := some 100 }]
    [{ commit_hash := "4444444444444444444444444444444444444444",
       parent := none, committer_timestamp := some 100 }]
    { commit_hash := "4444444444444444444444444444444444444444",
      parent := none, committer_timestamp := some 100 }
    (by rfl) (by rfl) (by simp) (by rfl)

/-- C9: the walker's behaviour depends on the supplied start date only
through its wall-clock value — `replace(tzinfo=utc)` silently reinterprets
any start date (aware with any zone, or naive) as that same wall-clock time
in UTC — and for a non-UTC offset this reinterpretation is not a
conversion: it denotes a different instant than the original value. -/
theorem start_date_tz_overwritten_utc (repo : Repo) (wall : Int)
    (tz : Option Int) (fuel : Nat) :
    get_commits_after_date repo ⟨wall, tz⟩ fuel =
      get_commits_after_date repo ⟨wall, some 0⟩ fuel ∧
    ∀ off : Int, off ≠ 0 →
      instant (replace_tz_utc ⟨wall, some off⟩) ≠ instant ⟨wall, some off⟩ := by
  constructor
  · cases hres : resolve_head repo with
    | error e => simp [get_commits_after_date, hres]
    | ok tip =>
      simp only [get_commits_after_date, hres]
      rw [walkLoop_wall_only repo.objects ⟨wall, tz⟩ ⟨wall, some 0⟩ rfl]
  · intro off hoff
    simp only [instant, replace_tz_utc]
    simp
    omega

/-- C9 (witness): a concrete aware start date with offset +3600 behaves
exactly like the naive/UTC reading of its wall clock, and its reinterpreted
instant differs from its original instant. -/
theorem start_date_tz_witness :
    get_commits_after_date ⟨"", [], []⟩ ⟨100, some 3600⟩ 1 =
      get_commits_after_date ⟨"", [], []⟩ ⟨100, some 0⟩ 1 ∧
    instant (replace_tz_utc ⟨100, some 3600⟩) ≠ instant ⟨100, some 3600⟩ :=
  ⟨(start_date_tz_overwritten_utc ⟨"", [], []⟩ 100 (some 3600) 1).1,
   (start_date_tz_overwritten_utc ⟨"", [], []⟩ 100 (some 3600) 1).2 3600
     (by decide)⟩

/-! The synthetic linear chain. -/

/-- Field computation for chain records. -/
theorem chainRecord_ts (hs : Nat → String) (ts : Nat → Int) (i : Nat) :
    (chainRecord hs ts i).committer_timestamp = some (ts i) := rfl

/-- A chain of tip index `k` holds `k + 1` records. -/
theorem chainRecords_length (hs : Nat → String) (ts : Nat → Int) :
    ∀ k, (chainRecords hs ts k).length = k + 1 := by
  intro k
  induction k with
  | zero => rfl
  | succ n ih => simp [chainRecords, ih]

/-- Every member of a chain segment is a chain record of index at most the
tip index. -/
theorem mem_chainRecords (hs : Nat → String) (ts : Nat → Int) :
    ∀ k x, x ∈ chainRecords hs ts k → ∃ j, j ≤ k ∧ x = chainRecord hs ts j := by
  intro k
  induction k with
  | zero =>
    intro x hx
    simp only [chainRecords, List.mem_singleton] at hx
    exact ⟨0, le_refl 0, hx⟩
  | succ n ih =>
    intro x hx
    rcases List.mem_cons.mp hx with rfl | hx
    · exact ⟨n + 1, le_refl _, rfl⟩
    · obtain ⟨j, hj, rfl⟩ := ih x hx
      exact ⟨j, by omega, rfl⟩

/-- With pairwise distinct hashes, every chain record up to the tip occurs
exactly once in the chain segment. -/
theorem count_chainRecords (hs : Nat → String) (ts : Nat → Int) (N : Nat)
    (hinj : ∀ i, i < N → ∀ j, j < N → hs i = hs j → i = j) :
    ∀ k, k < N → ∀ i, i ≤ k →
      (chainRecords hs ts k).count (chainRecord hs ts i) = 1 := by
  have hrec : ∀ i, i < N → ∀ j, j < N →
      chainRecord hs ts i = chainRecord hs ts j → i = j := by
    intro i hi j hj hij
    exact hinj i hi j hj (congrArg CommitRecord.commit_hash hij)
  intro k
  induction k with
  | zero =>
    intro hk i hi
    interval_cases i
    simp [chainRecords, List.count_cons]
  | succ n ih =>
    intro hk i hi
    rcases Nat.lt_or_ge i (n + 1) with hlt | hge
    · have hne : ¬ (chainRecord hs ts (n + 1) == chainRecord hs ts i) = true := by
        simp only [beq_iff_eq]
        intro he
        have := hrec (n + 1) hk i (by omega) he
        omega
      simp only [chainRecords, List.count_cons, hne, if_false]
      rw [ih (by omega) i (by omega)]
      simp
    · have hieq : i = n + 1 := by omega
      subst hieq
      have hnot : chainRecord hs ts (n + 1) ∉ chainRecords hs ts n := by
        intro hmem
        obtain ⟨j, hj, hje⟩ := mem_chainRecords hs ts n _ hmem
        have := hrec (n + 1) hk j (by omega) hje
        omega
      simp only [chainRecords, List.count_cons, beq_self_eq_true, if_true]
      rw [List.count_eq_zero.mpr hnot]

/-- Walking a synthetic linear chain from position `k` with enough fuel
collects precisely records `k` down to `0`, in that order (all pass the
date filter when the start date is at or below every timestamp). -/
theorem walkLoop_chain (objects : List (String × String)) (start : PyDateTime)
    (hs : Nat → String) (ts : Nat → Int) (N : Nat)
    (hread : ∀ i, i < N →
      read_commit (hs i) objects = .ok (chainRecord hs ts i))
    (hne : ∀ i, i < N → hs i ≠ "")
    (hts : ∀ i, i < N → start.wall ≤ ts i) :
    ∀ k, k < N → ∀ (fuel : Nat) (acc : List CommitRecord), k + 1 ≤ fuel →
      walkLoop objects start fuel (some (hs k)) acc =
        .ok (acc ++ chainRecords hs ts k) := by
  intro k
  induction k with
  | zero =>
    intro hk fuel acc hfuel
    obtain ⟨f, rfl⟩ : ∃ f, fuel = f + 1 := ⟨fuel - 1, by omega⟩
    have hkeep : dt_ge (fromtimestamp_utc (ts 0)) (replace_tz_utc start) =
        true := by
      have h0 := hts 0 hk
      simp [dt_ge, fromtimestamp_utc, replace_tz_utc, instant]
      omega
    have hnext : nextHash (chainRecord hs ts 0) = none := by
      simp [nextHash, chainRecord]
    simp only [walkLoop, hread 0 hk, chainRecord_ts, hnext, hkeep, if_true]
    simp [walkLoop, chainRecords]
  | succ n ih =>
    intro hk fuel acc hfuel
    obtain ⟨f, rfl⟩ : ∃ f, fuel = f + 1 := ⟨fuel - 1, by omega⟩
    have hkeep : dt_ge (fromtimestamp_utc (ts (n + 1))) (replace_tz_utc start) =
        true := by
      have h0 := hts (n + 1) hk
      simp [dt_ge, fromtimestamp_utc, replace_tz_utc, instant]
      omega
    have hnext : nextHash (chainRecord hs ts (n + 1)) = some (hs n) := by
      simp [nextHash, chainRecord, pyTruthy, hne n (by omega)]
    simp only [walkLoop, hread (n + 1) hk, chainRecord_ts, hnext, hkeep,
      if_true]
    rw [ih (by omega) f (acc ++ [chainRecord hs ts (n + 1)]) (by omega)]
    simp [chainRecords]

/-- C5: for every synthetic linear chain of N commits (each pointing at the
previous one, the root parentless, hashes pairwise distinct), the Walker
started at the tip with a start date at or below every timestamp returns
exactly N records, each chain commit appearing exactly once. -/
theorem walker_linear_chain_complete (repo : Repo) (start : PyDateTime)
    (fuel N : Nat) (hs : Nat → String) (ts : Nat → Int)
    (hN : 0 < N)
    (hres : resolve_head repo = .ok (hs (N - 1)))
    (hread : ∀ i, i < N →
      read_commit (hs i) repo.objects = .ok (chainRecord hs ts i))
    (hne : ∀ i, i < N → hs i ≠ "")
    (hinj : ∀ i, i < N → ∀ j, j < N → hs i = hs j → i = j)
    (hts : ∀ i, i < N → start.wall ≤ ts i)
    (hfuel : N ≤ fuel) :
    ∃ res, get_commits_after_date repo start fuel = .ok res ∧
      res.length = N ∧
      ∀ i, i < N → res.count (chainRecord hs ts i) = 1 := by
  have htr : pyTruthy (hs (N - 1)) = some (hs (N - 1)) := by
    simp [pyTruthy, hne (N - 1) (by omega)]
  have hwalk := walkLoop_chain repo.objects start hs ts N hread hne hts
    (N - 1) (by omega) fuel [] (by omega)
  refine ⟨sortByTs (chainRecords hs ts (N - 1)), ?_, ?_, ?_⟩
  · simp only [get_commits_after_date, hres, htr, hwalk, List.nil_append]
  · rw [(sortByTs_perm _).length_eq, chainRecords_length]
    omega
  · intro i hi
    rw [(sortByTs_perm _).count_eq]
    exact count_chainRecords hs ts N hinj (N - 1) (by omega) i (by omega)

/-- C5 (witness): a concrete three-commit chain, walked with fuel 10 and a
start date below all timestamps: three records, each exactly once. -/
theorem walker_linear_chain_witness :
    ∃ res,
      get_commits_after_date
        ⟨"7777777777777777777777777777777777777777",
         [],
         [(object_path "7777777777777777777777777777777777777777",
           "parent 6666666666666666666666666666666666666666\ncommitter a b 300 +0000"),
          (object_path "6666666666666666666666666666666666666666",
           "parent 5555555555555555555555555555555555555555\ncommitter a b 200 +0000"),
          (object_path "5555555555555555555555555555555555555555",
           "committer a b 100 +0000")]⟩ ⟨50, none⟩ 10 = .ok res ∧
      res.length = 3 ∧
      ∀ i, i < 3 →
        res.count
          (chainRecord
            (fun n => match n with
              | 0 => "5555555555555555555555555555555555555555"
              | 1 => "6666666666666666666666666666666666666666"
              | _ => "7777777777777777777777777777777777777777")
            (fun n => match n with
              | 0 => (100 : Int)
              | 1 => 200
              | _ => 300) i) = 1 :=
  walker_linear_chain_complete
    ⟨"7777777777777777777777777777777777777777",
     [],
     [(object_path "7777777777777777777777777777777777777777",
       "parent 6666666666666666666666666666666666666666\ncommitter a b 300 +0000"),
      (object_path "6666666666666666666666666666666666666666",
       "parent 5555555555555555555555555555555555555555\ncommitter a b 200 +0000"),
      (object_path "5555555555555555555555555555555555555555",
       "committer a b 100 +0000")]⟩ ⟨50, none⟩ 10 3
    (fun n => match n with
      | 0 => "5555555555555555555555555555555555555555"
      | 1 => "6666666666666666666666666666666666666666"
      | _ => "7777777777777777777777777777777777777777")
    (fun n => match n with
      | 0 => (100 : Int)
      | 1 => 200
      | _ => 300)
    (by omega) (by rfl)
    (fun i hi => by interval_cases i <;> rfl)
    (by decide)
    (fun i hi j hj => by interval_cases i <;> interval_cases j <;> simp_all)
    (by decide) (by omega)

/-! The graph builder. -/

/-- A found 1-based position points at a commit in the list carrying the
looked-up hash (the first such commit). -/
theorem findIdx1_pos (hsh : String) :
    ∀ (l : List CommitRecord) (p : Nat), findIdx1 hsh l = some p →
      1 ≤ p ∧ ∃ c, l[p - 1]? = some c ∧ c.commit_hash = hsh := by
  intro l
  induction l with
  | nil => intro p hp; cases hp
  | cons c cs ih =>
    intro p hp
    by_cases hc : c.commit_hash = hsh
    · simp only [findIdx1, if_pos hc] at hp
      cases hp
      exact ⟨by omega, c, by simp, hc⟩
    · simp only [findIdx1, if_neg hc] at hp
      cases hq : findIdx1 hsh cs with
      | none => rw [hq] at hp; cases hp
      | some q =>
        rw [hq] at hp
        simp only [Option.map_some'] at hp
        cases hp
        obtain ⟨hq1, c', hc', hhash⟩ := ih q hq
        refine ⟨by omega, c', ?_, hhash⟩
        have : q + 1 - 1 = (q - 1) + 1 := by omega
        rw [this, List.getElem?_cons_succ]
        exact hc'

/-- When no commit in the list carries the hash, the scan finds nothing. -/
theorem findIdx1_none (hsh : String) :
    ∀ l : List CommitRecord, (∀ c ∈ l, c.commit_hash ≠ hsh) →
      findIdx1 hsh l = none := by
  intro l
  induction l with
  | nil => intro _; rfl
  | cons c cs ih =>
    intro habs
    have hc : c.commit_hash ≠ hsh := habs c (List.mem_cons_self c cs)
    have hcs : ∀ c' ∈ cs, c'.commit_hash ≠ hsh :=
      fun c' hm => habs c' (List.mem_cons_of_mem c hm)
    simp only [findIdx1, if_neg hc, ih hcs, Option.map_none']

/-- Membership in the edge list, characterized: an edge targets position
`i + 1` exactly when the commit at index `i` has a truthy parent hash that
the hash scan finds at source position `p`. -/
theorem mem_generate_graph_edges (commits : List CommitRecord) (p q : Nat) :
    (p, q) ∈ generate_graph_edges commits ↔
      ∃ i c hname, commits[i]? = some c ∧ q = i + 1 ∧ c.parent = some hname ∧
        hname ≠ "" ∧ findIdx1 hname commits = some p := by
  unfold generate_graph_edges
  rw [List.mem_filterMap]
  constructor
  · rintro ⟨⟨i, c⟩, hmem, hf⟩
    have hic : commits[i]? = some c := List.mk_mem_enum_iff_getElem?.mp hmem
    cases hpar : c.parent with
    | none => simp only [hpar] at hf; cases hf
    | some hname =>
      simp only [hpar] at hf
      by_cases he : hname = ""
      · simp only [if_pos he] at hf
        cases hf
      · simp only [if_neg he] at hf
        cases hidx : findIdx1 hname commits with
        | none =>
          simp only [hidx, Option.map_none'] at hf
          cases hf
        | some j =>
          simp only [hidx, Option.map_some', Option.some.injEq,
            Prod.mk.injEq] at hf
          exact ⟨i, c, hname, hic, hf.2.symm, hpar, he, by rw [hidx, hf.1]⟩
  · rintro ⟨i, c, hname, hic, rfl, hpar, he, hidx⟩
    refine ⟨(i, c), List.mk_mem_enum_iff_getElem?.mpr hic, ?_⟩
    simp only [hpar, if_neg he, hidx, Option.map_some']

/-- C8: the graph builder draws an edge for a commit only when its parent
hash is carried by some commit of the same (filtered, sorted) list; with
the parent absent no edge targets that commit; a drawn edge runs from the
parent's 1-based position to the child's 1-based position. -/
theorem graph_edges_characterization (commits : List CommitRecord)
    (p q : Nat) :
    ((p, q) ∈ generate_graph_edges commits ↔
      ∃ i c hname, commits[i]? = some c ∧ q = i + 1 ∧ c.parent = some hname ∧
        hname ≠ "" ∧ findIdx1 hname commits = some p) ∧
    (∀ hname j, findIdx1 hname commits = some j →
      1 ≤ j ∧ ∃ cp, commits[j - 1]? = some cp ∧ cp.commit_hash = hname) ∧
    (∀ hname, (∀ c ∈ commits, c.commit_hash ≠ hname) →
      findIdx1 hname commits = none) :=
  ⟨mem_generate_graph_edges commits p q,
   fun hname j hj => findIdx1_pos hname commits j hj,
   fun hname habs => findIdx1_none hname commits habs⟩

/-- C8 (witness): in a two-commit list where the second commit's parent is
the first commit's hash, the edge (1, 2) is drawn. -/
theorem graph_edges_witness :
    (1, 2) ∈ generate_graph_edges
      [{ commit_hash := "8888888888888888888888888888888888888888",
         parent := none, committer_timestamp := some 1 },
       { commit_hash := "9999999999999999999999999999999999999999",
         parent := some "8888888888888888888888888888888888888888",
         committer_timestamp := some 2 }] :=
  (graph_edges_characterization
    [{ commit_hash := "8888888888888888888888888888888888888888",
       parent := none, committer_timestamp := some 1 },
     { commit_hash := "9999999999999999999999999999999999999999",
       parent := some "8888888888888888888888888888888888888888",
       committer_timestamp := some 2 }] 1 2).1.mpr
    ⟨1,
     { commit_hash := "9999999999999999999999999999999999999999",
       parent := some "8888888888888888888888888888888888888888",
       committer_timestamp := some 2 },
     "8888888888888888888888888888888888888888",
     by rfl, rfl, rfl, by decide, by rfl⟩

end DepGraph
